import Mathlib

/-!
Verification of the task-identity / dependency-declaration core
(`src/luigi/task.py`): parameter resolution (`Task.get_param_values`),
string-map construction (`Task.from_input`), the instance cache
(`InstanceCache.__call__`), dependency-shape traversal (`flatten`,
`getpaths`), and the task lifecycle contract (`complete`, `input`,
`deps`, `run`).
-/

namespace Luigi

/-- The failure modes of the Python code, one constructor per raise site:
* `missingParameter` — `raise MissingParameterException(...)` (task.py:87 and task.py:115);
* `duplicateParameter` — the failing `assert param_name not in result` (task.py:79);
* `unknownParameter` — the failing `assert param_name in params_dict` (task.py:80);
* `indexError` — `params[i]` with `i` out of range (task.py:74);
* `keyError` — a dict subscript on an absent key (`result[param_name]` task.py:91,
  `params[param_name]` task.py:109);
* `cannotMap` — `raise Exception("Cannot map ... to Task/dict/list")` (task.py:178);
* `notCallable` — calling the `NotImplemented` attribute bound to `run` (task.py:161). -/
inductive TaskError where
  | missingParameter (msg : String)
  | duplicateParameter
  | unknownParameter
  | indexError
  | keyError (name : String)
  | cannotMap
  | notCallable
deriving DecidableEq

/-- A parameter descriptor (the `Parameter` object of `parameter.py`, as used by
task.py): `default` is `some d` exactly when `has_default` holds, and `parse`
turns a command-line string into a value (task.py:110). -/
structure Param (α : Type) where
  default : Option α
  parse : String → α

/-- `param_obj.has_default` (task.py:86, task.py:112). -/
def Param.has_default (p : Param α) : Bool := p.default.isSome

/-- A dependency shape: the recursive structure handled by `flatten`
(task.py:183) and `getpaths` (task.py:164): `None`, a single leaf, a dict
(modelled as an association list in iteration order), or a list. -/
inductive Shape (α : Type) where
  | none
  | leaf (a : α)
  | dict (entries : List (String × Shape α))
  | list (elems : List (Shape α))

mutual

/-- `flatten(struct)` (task.py:183-209): `None` becomes `[]`, a dict
contributes its values in iteration order, an iterable its elements in
order, and any other value is a one-element list. -/
def flatten : Shape α → List α
  | .none => []
  | .leaf a => [a]
  | .dict es => flattenDict es
  | .list xs => flattenList xs

/-- The `for key, result in struct.iteritems(): flat += flatten(result)`
loop of task.py:197-198. -/
def flattenDict : List (String × Shape α) → List α
  | [] => []
  | kv :: rest => flatten kv.2 ++ flattenDict rest

/-- The `for result in struct: flat += flatten(result)` loop of
task.py:203-204. -/
def flattenList : List (Shape α) → List α
  | [] => []
  | s :: rest => flatten s ++ flattenList rest

end


/-- A Target: the external collaborator exposing only an existence check
(`output.exists()`, task.py:137). -/
structure Target where
  exists? : Bool
deriving DecidableEq

/-- A task instance as seen by the lifecycle methods: its `output()` shape of
Targets (task.py:142) and its `requires()` shape of further tasks
(task.py:145). -/
inductive Task where
  | mk (output : Shape Target) (requires : Shape Task)

/-- `self.output()` (task.py:142). -/
def Task.output : Task → Shape Target
  | .mk o _ => o

/-- `self.requires()` (task.py:145). -/
def Task.requires : Task → Shape Task
  | .mk _ r => r

mutual

/-- `getpaths(struct)` (task.py:164-180): a `Task` is replaced by its
`output()`, a dict is mapped over its values, an iterable over its
elements, and anything else raises. -/
def getpaths : Shape Task → Except TaskError (Shape Target)
  | .leaf t => .ok t.output
  | .dict es =>
    match getpathsDict es with
    | .ok es2 => .ok (.dict es2)
    | .error e => .error e
  | .list xs =>
    match getpathsList xs with
    | .ok xs2 => .ok (.list xs2)
    | .error e => .error e
  | .none => .error .cannotMap

/-- The `for k, v in struct.iteritems(): r[k] = getpaths(v)` loop of
task.py:170-171. -/
def getpathsDict : List (String × Shape Task) → Except TaskError (List (String × Shape Target))
  | [] => .ok []
  | (k, v) :: rest =>
    match getpaths v with
    | .error e => .error e
    | .ok v2 =>
      match getpathsDict rest with
      | .error e => .error e
      | .ok rest2 => .ok ((k, v2) :: rest2)

/-- The `[getpaths(r) for r in s]` comprehension of task.py:180. -/
def getpathsList : List (Shape Task) → Except TaskError (List (Shape Target))
  | [] => .ok []
  | v :: rest =>
    match getpaths v with
    | .error e => .error e
    | .ok v2 =>
      match getpathsList rest with
      | .error e => .error e
      | .ok rest2 => .ok (v2 :: rest2)

end

/-- `Task.complete` (task.py:125-140): flatten the output; an empty flattening
is incomplete; otherwise complete iff every Target exists. -/
def Task.complete (t : Task) : Bool :=
  let outputs := flatten t.output
  if outputs.length = 0 then false
  else outputs.all Target.exists?

/-- `Task.input` (task.py:148-149): `getpaths(self.requires())`. -/
def Task.input (t : Task) : Except TaskError (Shape Target) :=
  getpaths t.requires

/-- `Task.deps` (task.py:151-153): `flatten(self.requires())`. -/
def Task.deps (t : Task) : List Task :=
  flatten t.requires

/-- What a class binds to the name `run`: the base `Task` binds a real method
(task.py:155-156), `ExternalTask` rebinds the attribute to the
`NotImplemented` singleton (task.py:161). -/
inductive RunAttr where
  | method
  | notImplementedMarker
deriving DecidableEq

/-- `def run(self): pass` (task.py:155-156). -/
def Task.run_attr : RunAttr := .method

/-- `run = NotImplemented` (task.py:161). -/
def ExternalTask.run_attr : RunAttr := .notImplementedMarker

/-- Calling the attribute bound to `run`: a method call succeeds (the default
body is `pass`); calling the `NotImplemented` singleton raises a TypeError
because it is not callable. -/
def invokeRun : RunAttr → Except TaskError Unit
  | .method => .ok ()
  | .notImplementedMarker => .error .notCallable

/-! ### Python dicts as association lists

The Python code keeps the partially-resolved parameters in a dict `result`
(task.py:68).  We model a dict by an association list read through
first-match lookup; assignment (`result[k] = v`) replaces the value in place
when the key is present and appends otherwise, which gives the same lookup
semantics as the Python dict. -/

/-- First-match lookup in an association list (dict subscript read). -/
def lookupVal : List (String × α) → String → Option α
  | [], _ => Option.none
  | (k, v) :: rest, n => if k = n then some v else lookupVal rest n

/-- Key membership (`k in result`). -/
def dictContains (r : List (String × α)) (n : String) : Bool :=
  (lookupVal r n).isSome

/-- Dict assignment `result[n] = v`: replace the binding in place when the key
is present (an association list built by `dictInsert` never holds a key
twice), append otherwise. -/
def dictInsert : List (String × α) → String → α → List (String × α)
  | [], n, v => [(n, v)]
  | (k, w) :: rest, n, v =>
    if k = n then (n, v) :: rest else (k, w) :: dictInsert rest n v

/-! ### Identity resolution: `Task.get_param_values` (task.py:66-91)

The Python function runs four phases over the dict `result`: bind positional
arguments by schema index, bind keyword arguments by name (asserting no
duplicate and no unknown name), fill defaults or raise
`MissingParameterException`, and finally emit `(name, result[name])` in
schema order.  Each phase is one definition below and `get_param_values`
chains them. -/

/-- `for i, arg in enumerate(args): param_name, param_obj = params[i];
result[param_name] = arg` (task.py:72-75).  A surplus positional argument
makes `params[i]` raise an IndexError. -/
def bindPositional : List (String × Param α) → List α → List (String × α) →
    Except TaskError (List (String × α))
  | _, [], result => .ok result
  | [], _ :: _, _ => .error .indexError
  | (n, _) :: ps, a :: as, result => bindPositional ps as (dictInsert result n a)

/-- `for param_name, arg in kwargs.iteritems(): assert param_name not in result;
assert param_name in params_dict; result[param_name] = arg` (task.py:77-81). -/
def bindKeywords (paramNames : List String) : List (String × α) → List (String × α) →
    Except TaskError (List (String × α))
  | result, [] => .ok result
  | result, (n, v) :: rest =>
    if dictContains result n then .error .duplicateParameter
    else if paramNames.contains n then bindKeywords paramNames (dictInsert result n v) rest
    else .error .unknownParameter

/-- The message of `MissingParameterException` in `get_param_values`
(task.py:87). -/
def missingMsg (clsName paramName : String) : String :=
  clsName ++ " tasks requires the " ++ paramName ++ " parameter to be set"

/-- `for param_name, param_obj in params: if param_name not in result:
if not param_obj.has_default: raise MissingParameterException(...);
result[param_name] = param_obj.default` (task.py:83-88). -/
def fillDefaults (clsName : String) : List (String × α) → List (String × Param α) →
    Except TaskError (List (String × α))
  | result, [] => .ok result
  | result, (n, p) :: ps =>
    if dictContains result n then fillDefaults clsName result ps
    else
      match p.default with
      | some d => fillDefaults clsName (dictInsert result n d) ps
      | Option.none => .error (.missingParameter (missingMsg clsName n))

/-- `return [(param_name, result[param_name]) for param_name, param_obj in params]`
(task.py:91). -/
def emitInOrder (result : List (String × α)) : List (String × Param α) →
    Except TaskError (List (String × α))
  | [] => .ok []
  | (n, _) :: ps =>
    match lookupVal result n with
    | some v =>
      match emitInOrder result ps with
      | .ok rest => .ok ((n, v) :: rest)
      | .error e => .error e
    | Option.none => .error (.keyError n)

/-- `Task.get_param_values(params, args, kwargs)` (task.py:66-91); `clsName`
stands for `cls.__name__` used in the error message. -/
def get_param_values (clsName : String) (params : List (String × Param α))
    (args : List α) (kwargs : List (String × α)) : Except TaskError (List (String × α)) :=
  match bindPositional params args [] with
  | .error e => .error e
  | .ok r1 =>
    match bindKeywords (params.map Prod.fst) r1 kwargs with
    | .error e => .error e
    | .ok r2 =>
      match fillDefaults clsName r2 params with
      | .error e => .error e
      | .ok r3 => emitInOrder r3 params

/-! ### `Task.from_input` (task.py:104-117)

Builds a kwargs dict by iterating the schema: an absent key raises a
KeyError at `params[param_name]`; a non-null value is parsed; a null value
falls back to the default or raises `MissingParameterException`.  The final
`cls(**kwargs)` routes the kwargs through `get_param_values`. -/

/-- The message of `MissingParameterException` in `from_input` (task.py:115). -/
def fromInputMsg (paramName : String) : String :=
  "No value for " ++ paramName ++ " submitted and no default value has been assigned."

/-- The kwargs-building loop of `from_input` (task.py:107-115). -/
def buildKwargs : List (String × Param α) → List (String × Option String) →
    Except TaskError (List (String × α))
  | [], _ => .ok []
  | (n, p) :: rest, input =>
    match lookupVal input n with
    | Option.none => .error (.keyError n)
    | some (some s) =>
      match buildKwargs rest input with
      | .ok kw => .ok ((n, p.parse s) :: kw)
      | .error e => .error e
    | some Option.none =>
      match p.default with
      | some d =>
        match buildKwargs rest input with
        | .ok kw => .ok ((n, d) :: kw)
        | .error e => .error e
      | Option.none => .error (.missingParameter (fromInputMsg n))

/-- `Task.from_input(params)` (task.py:104-117), up to the canonical
parameter list computed by the `cls(**kwargs)` construction. -/
def from_input (clsName : String) (schema : List (String × Param α))
    (input : List (String × Option String)) : Except TaskError (List (String × α)) :=
  match buildKwargs schema input with
  | .error e => .error e
  | .ok kw => get_param_values clsName schema [] kw

/-! ### The instance registry: `InstanceCache.__call__` (task.py:6-38)

The metaclass keeps a process-wide dict from `(cls, tuple(param_values))` to
the constructed instance; `None` in place of the dict means the registry is
disabled.  A constructed instance is modelled by the counter value current
at its allocation, so "the very same instance" is "the same counter value". -/

/-- A task-type: its `__name__` (standing for the class object used in the
cache key) and its parameter schema `get_params()`. -/
structure TaskType (α : Type) where
  name : String
  params : List (String × Param α)

/-- The registry state: `InstanceCache.__instance_cache` (`Option.none` models
the disabled state task.py:19), plus the allocation counter that stands for
object identity. -/
structure RegState (α : Type) where
  cache : Option (List ((String × List (String × α)) × Nat))
  next : Nat

/-- `k in h` / `h[k]` on the cache dict. -/
def cacheLookup [DecidableEq α] :
    List ((String × List (String × α)) × Nat) → String × List (String × α) → Option Nat
  | [], _ => Option.none
  | (k, i) :: rest, k2 => if k = k2 then some i else cacheLookup rest k2

/-- `InstanceCache.__call__(cls, *args, **kwargs)` (task.py:13-30): with the
registry disabled, instantiate directly; otherwise resolve the canonical
parameters, look the key up, instantiate and store on a miss, and return
the cached instance. -/
def getOrCreate [DecidableEq α] (cls : TaskType α) (args : List α)
    (kwargs : List (String × α)) (s : RegState α) :
    Except TaskError (Nat × RegState α) :=
  match s.cache with
  | Option.none => .ok (s.next, ⟨Option.none, s.next + 1⟩)
  | some h =>
    match get_param_values cls.name cls.params args kwargs with
    | .error e => .error e
    | .ok pv =>
      let k := (cls.name, pv)
      match cacheLookup h k with
      | some inst => .ok (inst, s)
      | Option.none => .ok (s.next, ⟨some ((k, s.next) :: h), s.next + 1⟩)

/-- `InstanceCache.clear()` (task.py:32-34). -/
def RegState.clear (s : RegState α) : RegState α := ⟨some [], s.next⟩

/-- `InstanceCache.disable()` (task.py:36-38). -/
def RegState.disable (s : RegState α) : RegState α := ⟨Option.none, s.next⟩

/-! ### The effective binding of a construction request

`posVal` is the value a name receives from the positional phase (a later
positional binding for the same name overwrites an earlier one, as dict
assignment does), `suppliedVal` adds the keyword phase.  These describe the
per-name outcome of a request and let distinct supplies be compared. -/

/-- The value the positional phase leaves bound to `n`, if any. -/
def posVal : List (String × Param α) → List α → String → Option α
  | _, [], _ => Option.none
  | [], _ :: _, _ => Option.none
  | (m, _) :: ps, a :: as, n =>
    match posVal ps as n with
    | some v => some v
    | Option.none => if m = n then some a else Option.none

/-- The value a request supplies for `n`: positionally, else by keyword. -/
def suppliedVal (params : List (String × Param α)) (args : List α)
    (kwargs : List (String × α)) (n : String) : Option α :=
  match posVal params args n with
  | some v => some v
  | Option.none => lookupVal kwargs n

/-- The value a successful resolution binds to descriptor `(n, p)`: the
supplied value, else the default. -/
def resolveSpec (params : List (String × Param α)) (args : List α)
    (kwargs : List (String × α)) (n : String) (p : Param α) : Option α :=
  match suppliedVal params args kwargs n with
  | some v => some v
  | Option.none => p.default

/-! ### Spec-side relations and fixtures -/

mutual

/-- Spec-side statement of projection: the result is structurally identical to
the input — same keys in the same order, same lengths, same nesting — with
every Task leaf replaced by that task's `output()` shape. -/
inductive ProjectsTo : Shape Task → Shape Target → Prop
  | leaf (t : Task) : ProjectsTo (.leaf t) t.output
  | dict {es es2} : ProjectsDict es es2 → ProjectsTo (.dict es) (.dict es2)
  | list {xs xs2} : ProjectsList xs xs2 → ProjectsTo (.list xs) (.list xs2)

/-- Entry lists project pointwise: equal keys in equal positions, equal
length, values projected. -/
inductive ProjectsDict : List (String × Shape Task) → List (String × Shape Target) → Prop
  | nil : ProjectsDict [] []
  | cons {k v v2 rest rest2} : ProjectsTo v v2 → ProjectsDict rest rest2 →
      ProjectsDict ((k, v) :: rest) ((k, v2) :: rest2)

/-- Element lists project pointwise, preserving length and order. -/
inductive ProjectsList : List (Shape Task) → List (Shape Target) → Prop
  | nil : ProjectsList [] []
  | cons {v v2 rest rest2} : ProjectsTo v v2 → ProjectsList rest rest2 →
      ProjectsList (v :: rest) (v2 :: rest2)

end

/-- An input-map entry that `from_input`'s loop passes without raising: a
non-null string value, or a null value backed by a default. -/
def SuppliedOk (input : List (String × Option String)) (mq : String × Param α) : Prop :=
  (∃ s, lookupVal input mq.1 = some (some s)) ∨
  (lookupVal input mq.1 = some Option.none ∧ mq.2.default.isSome = true)

/-- Whether a resolution outcome is a `MissingParameterException`. -/
def isMissingParameterError : Except TaskError β → Bool
  | .error (.missingParameter _) => true
  | _ => false

/-- Fixture: a two-parameter schema, `name` required and `n` defaulting. -/
def schemaW : List (String × Param String) :=
  [("name", ⟨Option.none, fun s => s⟩), ("n", ⟨some "10", fun s => s⟩)]

/-- Fixture task-type for the registry witness. -/
def clsW : TaskType String := ⟨"T", schemaW⟩

/-- Fixture: an enabled, empty registry. -/
def regW : RegState String := ⟨some [], 0⟩

/-- Fixture: the registry after the first construction of `T(name=x, n=10)`. -/
def regW1 : RegState String := ⟨some [(("T", [("name", "x"), ("n", "10")]), 0)], 1⟩

/-- Fixture: a task with a single existing Target as output and the default
empty `requires()`. -/
def taskW : Task := .mk (.leaf ⟨true⟩) (.list [])

/-- Structural induction over `Shape`, descending into the dict values and
the list elements. -/
theorem Shape.inductionOn {α : Type} {motive : Shape α → Prop}
    (hnone : motive .none) (hleaf : ∀ a, motive (.leaf a))
    (hdict : ∀ es, (∀ kv ∈ es, motive kv.2) → motive (.dict es))
    (hlist : ∀ xs, (∀ x ∈ xs, motive x) → motive (.list xs)) :
    ∀ s, motive s
  | .none => hnone
  | .leaf a => hleaf a
  | .dict es => hdict es (fun kv hkv =>
      have : sizeOf kv.2 < 1 + sizeOf es := by
        have h1 := List.sizeOf_lt_of_mem hkv
        have h2 : sizeOf kv.2 < sizeOf kv := by
          cases kv with
          | mk k v => simp
        omega
      Shape.inductionOn hnone hleaf hdict hlist kv.2)
  | .list xs => hlist xs (fun x hx =>
      have : sizeOf x < 1 + sizeOf xs := by
        have h1 := List.sizeOf_lt_of_mem hx
        omega
      Shape.inductionOn hnone hleaf hdict hlist x)
termination_by s => sizeOf s

/-! ### Association-list lemmas -/

theorem lookupVal_dictInsert (r : List (String × α)) (n m : String) (v : α) :
    lookupVal (dictInsert r n v) m = if n = m then some v else lookupVal r m := by
  induction r with
  | nil => simp [dictInsert, lookupVal]
  | cons kv rest ih =>
    obtain ⟨k, w⟩ := kv
    by_cases hkn : k = n
    · subst hkn
      by_cases hm : k = m <;> simp [dictInsert, lookupVal, hm]
    · by_cases hm : k = m
      · subst hm
        have hnm : n ≠ k := fun h => hkn h.symm
        simp [dictInsert, lookupVal, hkn, hnm]
      · simp [dictInsert, lookupVal, hkn, hm, ih]

theorem dictContains_eq_false (r : List (String × α)) (n : String)
    (h : dictContains r n = false) : lookupVal r n = Option.none := by
  unfold dictContains at h
  cases hl : lookupVal r n with
  | none => rfl
  | some v => rw [hl] at h; simp at h

theorem dictInsert_of_not_contains (r : List (String × α)) (n : String) (v : α)
    (h : dictContains r n = false) : dictInsert r n v = r ++ [(n, v)] := by
  induction r with
  | nil => simp [dictInsert]
  | cons kv rest ih =>
    obtain ⟨k, w⟩ := kv
    by_cases hkn : k = n
    · subst hkn
      simp [dictContains, lookupVal] at h
    · simp [dictContains, lookupVal, hkn] at h
      have hc : dictContains rest n = false := by simp [dictContains, h]
      simp [dictInsert, hkn, ih hc]

theorem lookupVal_append (a b : List (String × α)) (n : String) :
    lookupVal (a ++ b) n =
      match lookupVal a n with
      | some v => some v
      | Option.none => lookupVal b n := by
  induction a with
  | nil => simp [lookupVal]
  | cons kv rest ih =>
    obtain ⟨k, w⟩ := kv
    by_cases hk : k = n <;> simp [lookupVal, hk, ih]

/-! ### Characterizing the four phases of `get_param_values` -/

/-- A successful positional phase leaves `n` bound to its positional value,
falling back to whatever the accumulator already held. -/
theorem bindPositional_lookup :
    ∀ (params : List (String × Param α)) (args : List α) (r0 r1 : List (String × α)),
      bindPositional params args r0 = .ok r1 →
      ∀ n, lookupVal r1 n =
        match posVal params args n with
        | some v => some v
        | Option.none => lookupVal r0 n := by
  intro params
  induction params with
  | nil =>
    intro args r0 r1 h n
    cases args with
    | nil => simp [bindPositional] at h; subst h; simp [posVal]
    | cons a as => simp [bindPositional] at h
  | cons mp ps ih =>
    intro args r0 r1 h n
    obtain ⟨m, p⟩ := mp
    cases args with
    | nil => simp [bindPositional] at h; subst h; simp [posVal]
    | cons a as =>
      simp only [bindPositional] at h
      have := ih as (dictInsert r0 m a) r1 h n
      rw [this]
      simp only [posVal]
      cases posVal ps as n with
      | some v => simp
      | none =>
        simp only [lookupVal_dictInsert]
        by_cases hmn : m = n <;> simp [hmn]

/-- A successful keyword phase appends exactly the keyword bindings. -/
theorem bindKeywords_ok (names : List String) :
    ∀ (kws result r2 : List (String × α)),
      bindKeywords names result kws = .ok r2 → r2 = result ++ kws := by
  intro kws
  induction kws with
  | nil => intro result r2 h; simp [bindKeywords] at h; simp [h.symm]
  | cons nv rest ih =>
    intro result r2 h
    obtain ⟨n, v⟩ := nv
    simp only [bindKeywords] at h
    by_cases hc : dictContains result n
    · simp [hc] at h
    · simp only [hc, if_false, Bool.false_eq_true] at h
      cases hcn : names.contains n with
      | false => rw [hcn] at h; simp at h
      | true =>
        rw [hcn] at h
        simp at h
        have := ih (dictInsert result n v) r2 h
        rw [this, dictInsert_of_not_contains result n v (by simp [hc])]
        simp

/-- The defaults phase never disturbs an existing binding. -/
theorem fillDefaults_mono (clsName : String) :
    ∀ (ps : List (String × Param α)) (result r3 : List (String × α)) (n : String) (v : α),
      fillDefaults clsName result ps = .ok r3 →
      lookupVal result n = some v → lookupVal r3 n = some v := by
  intro ps
  induction ps with
  | nil => intro result r3 n v h hl; simp [fillDefaults] at h; rw [← h]; exact hl
  | cons mq ps ih =>
    intro result r3 n v h hl
    obtain ⟨m, q⟩ := mq
    simp only [fillDefaults] at h
    by_cases hc : dictContains result m
    · simp only [hc, if_true] at h
      exact ih result r3 n v h hl
    · simp only [hc, if_false, Bool.false_eq_true] at h
      cases hd : q.default with
      | none => rw [hd] at h; simp at h
      | some d =>
        rw [hd] at h
        have hmn : m ≠ n := by
          intro he
          subst he
          rw [dictContains_eq_false result m (by simp [hc])] at hl
          simp at hl
        refine ih (dictInsert result m d) r3 n v h ?_
        rw [lookupVal_dictInsert]
        simp [hmn, hl]

/-- A successful defaults phase binds every schema name that was still unbound
to its descriptor's default (which therefore must exist). -/
theorem fillDefaults_unbound (clsName : String) :
    ∀ (ps : List (String × Param α)) (result r3 : List (String × α)) (n : String) (p : Param α),
      (ps.map Prod.fst).Nodup → (n, p) ∈ ps →
      fillDefaults clsName result ps = .ok r3 →
      lookupVal result n = Option.none →
      ∃ d, p.default = some d ∧ lookupVal r3 n = some d := by
  intro ps
  induction ps with
  | nil => intro result r3 n p _ hmem; simp at hmem
  | cons mq ps ih =>
    intro result r3 n p hnd hmem h hl
    obtain ⟨m, q⟩ := mq
    simp only [List.map_cons, List.nodup_cons] at hnd
    rcases List.mem_cons.mp hmem with hhead | htail
    · injection hhead with h1 h2
      subst h1
      subst h2
      simp only [fillDefaults] at h
      have hc : dictContains result n = false := by simp [dictContains, hl]
      simp only [hc, Bool.false_eq_true, if_false] at h
      cases hd : p.default with
      | none => rw [hd] at h; simp at h
      | some d =>
        rw [hd] at h
        refine ⟨d, rfl, ?_⟩
        refine fillDefaults_mono clsName ps (dictInsert result n d) r3 n d h ?_
        rw [lookupVal_dictInsert]; simp
    · have hn_mem : n ∈ ps.map Prod.fst := List.mem_map.mpr ⟨(n, p), htail, rfl⟩
      have hmn : m ≠ n := by
        intro he; subst he; exact hnd.1 hn_mem
      simp only [fillDefaults] at h
      by_cases hc : dictContains result m
      · simp only [hc, if_true] at h
        exact ih result r3 n p hnd.2 htail h hl
      · simp only [hc, Bool.false_eq_true, if_false] at h
        cases hd : q.default with
        | none => rw [hd] at h; simp at h
        | some d =>
          rw [hd] at h
          refine ih (dictInsert result m d) r3 n p hnd.2 htail h ?_
          rw [lookupVal_dictInsert]
          simp [hmn, hl]

/-- The emission phase returns one `(name, value)` pair per descriptor, in
schema order, reading each value from the resolved dict. -/
theorem emitInOrder_forall₂ :
    ∀ (ps : List (String × Param α)) (r : List (String × α)) (res : List (String × α)),
      emitInOrder r ps = .ok res →
      List.Forall₂ (fun np rv => rv.1 = np.1 ∧ lookupVal r np.1 = some rv.2) ps res := by
  intro ps
  induction ps with
  | nil => intro r res h; simp [emitInOrder] at h; subst h; exact List.Forall₂.nil
  | cons np ps ih =>
    intro r res h
    obtain ⟨n, p⟩ := np
    simp only [emitInOrder] at h
    cases hl : lookupVal r n with
    | none => rw [hl] at h; simp at h
    | some v =>
      rw [hl] at h
      cases he : emitInOrder r ps with
      | error e => rw [he] at h; simp at h
      | ok rest =>
        rw [he] at h
        simp only [Except.ok.injEq] at h
        subst h
        exact List.Forall₂.cons ⟨rfl, hl⟩ (ih r rest he)

/-- Strengthened `Forall₂` congruence: the relation may be weakened using
membership of the left element. -/
theorem forall₂_imp_mem {R S : β → γ → Prop} :
    ∀ {l1 : List β} {l2 : List γ}, List.Forall₂ R l1 l2 →
      (∀ a ∈ l1, ∀ b, R a b → S a b) → List.Forall₂ S l1 l2 := by
  intro l1 l2 h
  induction h with
  | nil => intro _; exact List.Forall₂.nil
  | cons hab htail ih =>
    intro himp
    exact List.Forall₂.cons (himp _ (List.mem_cons_self _ _) _ hab)
      (ih fun a ha b hr => himp a (List.mem_cons_of_mem _ ha) b hr)

/-- The central characterization: a successful `get_param_values` returns one
pair per descriptor, in schema order, whose value is the supplied value if
any and the descriptor's default otherwise. -/
theorem get_param_values_char (clsName : String) (params : List (String × Param α))
    (args : List α) (kwargs res : List (String × α))
    (hnd : (params.map Prod.fst).Nodup)
    (h : get_param_values clsName params args kwargs = .ok res) :
    List.Forall₂ (fun np rv =>
      rv.1 = np.1 ∧ some rv.2 = resolveSpec params args kwargs np.1 np.2) params res := by
  unfold get_param_values at h
  cases h1 : bindPositional params args ([] : List (String × α)) with
  | error e => rw [h1] at h; simp at h
  | ok r1 =>
    rw [h1] at h
    dsimp only at h
    cases h2 : bindKeywords (params.map Prod.fst) r1 kwargs with
    | error e => rw [h2] at h; simp at h
    | ok r2 =>
      rw [h2] at h
      dsimp only at h
      cases h3 : fillDefaults clsName r2 params with
      | error e => rw [h3] at h; simp at h
      | ok r3 =>
        rw [h3] at h
        dsimp only at h
        have hemit := emitInOrder_forall₂ params r3 res h
        refine forall₂_imp_mem hemit ?_
        rintro ⟨n, p⟩ hmem ⟨n2, v⟩ ⟨hn2, hlook⟩
        refine ⟨hn2, ?_⟩
        have hr1 : lookupVal r1 n =
            match posVal params args n with
            | some w => some w
            | Option.none => lookupVal ([] : List (String × α)) n :=
          bindPositional_lookup params args [] r1 h1 n
        have hr2 : r2 = r1 ++ kwargs := bindKeywords_ok _ kwargs r1 r2 h2
        have hr2look : lookupVal r2 n = suppliedVal params args kwargs n := by
          rw [hr2, lookupVal_append, hr1]
          unfold suppliedVal
          cases posVal params args n <;> simp [lookupVal]
        cases hs : suppliedVal params args kwargs n with
        | some w =>
          have : lookupVal r3 n = some w :=
            fillDefaults_mono clsName params r2 r3 n w h3 (by rw [hr2look, hs])
          rw [this] at hlook
          unfold resolveSpec
          rw [hs, ← hlook]
        | none =>
          obtain ⟨d, hd, hl3⟩ := fillDefaults_unbound clsName params r2 r3 n p hnd hmem h3
            (by rw [hr2look, hs])
          rw [hl3] at hlook
          unfold resolveSpec
          rw [hs, hd, ← hlook]

/-- Two `Forall₂` characterizations against the same value function force the
same output list. -/
theorem forall₂_value_unique {F : String × Param α → Option α} :
    ∀ {ps : List (String × Param α)} {res1 res2 : List (String × α)},
      List.Forall₂ (fun np rv => rv.1 = np.1 ∧ some rv.2 = F np) ps res1 →
      List.Forall₂ (fun np rv => rv.1 = np.1 ∧ some rv.2 = F np) ps res2 →
      res1 = res2 := by
  intro ps res1 res2 h1
  induction h1 generalizing res2 with
  | nil => intro h2; cases h2; rfl
  | cons hab htail ih =>
    intro h2
    cases h2 with
    | cons hab2 htail2 =>
      have hv : _ = _ := hab.2.trans hab2.2.symm
      simp only [Option.some.injEq] at hv
      have heq : _ = _ := Prod.ext (hab.1.trans hab2.1.symm) hv
      rw [heq, ih htail2]

/-- A `Forall₂` characterization pins the output names to the schema names in
order. -/
theorem forall₂_names {R : String × Param α → String × α → Prop}
    (hR : ∀ np rv, R np rv → rv.1 = np.1) :
    ∀ {ps : List (String × Param α)} {res : List (String × α)},
      List.Forall₂ R ps res → res.map Prod.fst = ps.map Prod.fst := by
  intro ps res h
  induction h with
  | nil => rfl
  | cons hab htail ih => simp [ih, hR _ _ hab]

/-! ## Claim C2 -/

/-- Claim C2: for every schema and every two ways of supplying the same
argument values (per name: positionally, by keyword in any insertion order,
or left to the default), a successful `get_param_values` emits the identical
canonical parameter list — one `(name, value)` pair per descriptor, ordered
by schema order. -/
theorem C2_canonical_params_schema_order {α : Type} (c1 c2 : String)
    (params : List (String × Param α)) (args1 args2 : List α)
    (kwargs1 kwargs2 res1 res2 : List (String × α))
    (hnd : (params.map Prod.fst).Nodup)
    (h1 : get_param_values c1 params args1 kwargs1 = .ok res1)
    (h2 : get_param_values c2 params args2 kwargs2 = .ok res2)
    (hsame : ∀ n, suppliedVal params args1 kwargs1 n = suppliedVal params args2 kwargs2 n) :
    res1 = res2 ∧ res1.map Prod.fst = params.map Prod.fst := by
  have hc1 := get_param_values_char c1 params args1 kwargs1 res1 hnd h1
  have hc2 := get_param_values_char c2 params args2 kwargs2 res2 hnd h2
  have hc2a : List.Forall₂ (fun np rv =>
      rv.1 = np.1 ∧ some rv.2 = resolveSpec params args1 kwargs1 np.1 np.2) params res2 := by
    refine forall₂_imp_mem hc2 ?_
    rintro ⟨n, p⟩ _ ⟨n2, v⟩ ⟨ha, hb⟩
    refine ⟨ha, ?_⟩
    rw [hb]
    unfold resolveSpec
    rw [hsame n]
  refine ⟨forall₂_value_unique (F := fun np => resolveSpec params args1 kwargs1 np.1 np.2)
      hc1 hc2a, ?_⟩
  exact forall₂_names (fun np rv hr => hr.1) hc1


/-- The all-positional supply `("x", "7")` and the all-keyword supply
`n="7", name="x"` (reversed insertion order) bind every name identically. -/
theorem suppliedW_eq : ∀ n, suppliedVal schemaW ["x", "7"] [] n =
    suppliedVal schemaW [] [("n", "7"), ("name", "x")] n := by
  intro n
  by_cases h1 : "n" = n
  · subst h1; rfl
  · by_cases h2 : "name" = n
    · subst h2; rfl
    · simp [suppliedVal, posVal, lookupVal, schemaW, h1, h2]

/-- Witness for C2: supplying `name="x", n="7"` all positionally and all by
keyword (in reversed insertion order) both succeed and agree. -/
theorem C2_witness :
    get_param_values "T" schemaW ["x", "7"] [] = .ok [("name", "x"), ("n", "7")] ∧
    [("name", "x"), ("n", "7")] = [("name", "x"), ("n", "7")] ∧
    [("name", "x"), ("n", "7")].map Prod.fst = schemaW.map Prod.fst := by
  refine ⟨rfl, ?_, ?_⟩
  · exact (C2_canonical_params_schema_order "T" "T" schemaW ["x", "7"] []
      [] [("n", "7"), ("name", "x")] [("name", "x"), ("n", "7")] [("name", "x"), ("n", "7")]
      (by decide) rfl rfl suppliedW_eq).1
  · exact (C2_canonical_params_schema_order "T" "T" schemaW ["x", "7"] []
      [] [("n", "7"), ("name", "x")] [("name", "x"), ("n", "7")] [("name", "x"), ("n", "7")]
      (by decide) rfl rfl suppliedW_eq).2

/-! ## Claim C1 -/

/-- Claim C1: while the registry is enabled, two construction requests for
the same task-type whose resolved canonical parameters compare equal return
the very same instance — the second request returns the instance stored by
the first. -/
theorem C1_registry_same_instance {α : Type} [DecidableEq α]
    (cls : TaskType α) (args1 args2 : List α) (kwargs1 kwargs2 : List (String × α))
    (s s1 s2 : RegState α) (h : List ((String × List (String × α)) × Nat)) (i1 i2 : Nat)
    (henabled : s.cache = some h)
    (hsame : get_param_values cls.name cls.params args1 kwargs1 =
             get_param_values cls.name cls.params args2 kwargs2)
    (h1 : getOrCreate cls args1 kwargs1 s = .ok (i1, s1))
    (h2 : getOrCreate cls args2 kwargs2 s1 = .ok (i2, s2)) :
    i2 = i1 := by
  unfold getOrCreate at h1 h2
  rw [henabled] at h1
  dsimp only at h1
  cases hpv : get_param_values cls.name cls.params args1 kwargs1 with
  | error e => rw [hpv] at h1; simp at h1
  | ok pv =>
    rw [hpv] at h1
    dsimp only at h1
    have hpv2 : get_param_values cls.name cls.params args2 kwargs2 = .ok pv :=
      hsame ▸ hpv
    cases hl : cacheLookup h (cls.name, pv) with
    | some inst =>
      rw [hl] at h1
      simp only [Except.ok.injEq, Prod.mk.injEq] at h1
      obtain ⟨hi1, hs1⟩ := h1
      rw [← hs1, henabled] at h2
      dsimp only at h2
      rw [hpv2] at h2
      dsimp only at h2
      rw [hl] at h2
      simp only [Except.ok.injEq, Prod.mk.injEq] at h2
      rw [← h2.1]
      exact hi1
    | none =>
      rw [hl] at h1
      simp only [Except.ok.injEq, Prod.mk.injEq] at h1
      obtain ⟨hi1, hs1⟩ := h1
      rw [← hs1] at h2
      dsimp only at h2
      rw [hpv2] at h2
      dsimp only at h2
      have hhead : cacheLookup (((cls.name, pv), s.next) :: h) (cls.name, pv) = some s.next := by
        unfold cacheLookup
        simp
      rw [hhead] at h2
      simp only [Except.ok.injEq, Prod.mk.injEq] at h2
      rw [← h2.1]
      exact hi1




/-- Witness for C1: constructing `T("x")` twice against an enabled registry
returns instance `0` both times. -/
theorem C1_witness :
    regW.cache = some [] ∧
    getOrCreate clsW ["x"] [] regW = .ok (0, regW1) ∧
    getOrCreate clsW ["x"] [] regW1 = .ok (0, regW1) ∧
    (0 : Nat) = 0 := by
  refine ⟨rfl, rfl, rfl, ?_⟩
  exact C1_registry_same_instance clsW ["x"] ["x"] [] [] regW regW1 regW1 [] 0 0
    rfl rfl rfl rfl

/-! ## Claim C3 -/

/-- Claim C3: `complete()` is false when `flatten(output())` is empty; when
that list is non-empty, `complete()` is true iff every Target in it
exists. -/
theorem C3_complete_iff_outputs_exist (t : Task) :
    (flatten t.output = [] → t.complete = false) ∧
    (flatten t.output ≠ [] →
      (t.complete = true ↔ ∀ tg ∈ flatten t.output, tg.exists? = true)) := by
  constructor
  · intro h
    simp [Task.complete, h]
  · intro h
    have hlen : (flatten t.output).length ≠ 0 := by
      intro hc
      exact h (List.length_eq_zero.mp hc)
    simp [Task.complete, hlen, List.all_eq_true]


/-- Witness for C3: the fixture task has one output Target, which exists, and
is complete. -/
theorem C3_witness : flatten taskW.output ≠ [] ∧ taskW.complete = true :=
  ⟨by decide,
   ((C3_complete_iff_outputs_exist taskW).2 (by decide)).mpr (by decide)⟩

/-! ## Claim C4 -/

/-- The dict loop of `flatten` concatenates the flattened values in iteration
order. -/
theorem flattenDict_eq (es : List (String × Shape α)) :
    flattenDict es = (es.map (fun kv => flatten kv.2)).flatten := by
  induction es with
  | nil => simp [flattenDict]
  | cons kv rest ih => simp [flattenDict, ih]

/-- The iterable loop of `flatten` concatenates the flattened elements in
order. -/
theorem flattenList_eq (xs : List (Shape α)) :
    flattenList xs = (xs.map flatten).flatten := by
  induction xs with
  | nil => simp [flattenList]
  | cons x rest ih => simp [flattenList, ih]

/-- Claim C4: `flatten` of an absent shape or an empty container is empty, of
a mapping is the in-key-order concatenation of the flattened values, of a
sequence the in-order concatenation of the flattened elements, and of a
single leaf the one-element list; in particular the shape
`a -> t1, b -> [t2, t3]` flattens to `[t1, t2, t3]`. -/
theorem C4_flatten_shape_cases {α : Type} :
    (flatten (Shape.none : Shape α) = []) ∧
    (flatten (Shape.dict ([] : List (String × Shape α))) = []) ∧
    (flatten (Shape.list ([] : List (Shape α))) = []) ∧
    (∀ es : List (String × Shape α),
      flatten (.dict es) = (es.map (fun kv => flatten kv.2)).flatten) ∧
    (∀ xs : List (Shape α), flatten (.list xs) = (xs.map flatten).flatten) ∧
    (∀ a : α, flatten (.leaf a) = [a]) ∧
    (∀ t1 t2 t3 : α,
      flatten (.dict [("a", .leaf t1), ("b", .list [.leaf t2, .leaf t3])]) = [t1, t2, t3]) := by
  refine ⟨rfl, rfl, rfl, ?_, ?_, fun a => rfl, fun t1 t2 t3 => rfl⟩
  · intro es
    rw [flatten, flattenDict_eq]
  · intro xs
    rw [flatten, flattenList_eq]

/-! ## Claim C5 -/


/-- A successful dict projection projects the entries pointwise, preserving
keys. -/
theorem getpathsDict_projects :
    ∀ (es : List (String × Shape Task)) (es2 : List (String × Shape Target)),
      getpathsDict es = .ok es2 →
      (∀ kv ∈ es, ∀ r, getpaths kv.2 = .ok r → ProjectsTo kv.2 r) →
      ProjectsDict es es2 := by
  intro es
  induction es with
  | nil => intro es2 h _; simp [getpathsDict] at h; subst h; exact ProjectsDict.nil
  | cons kv rest ih =>
    intro es2 h hmem
    obtain ⟨k, v⟩ := kv
    simp only [getpathsDict] at h
    cases hv : getpaths v with
    | error e => rw [hv] at h; simp at h
    | ok v2 =>
      rw [hv] at h
      cases hr : getpathsDict rest with
      | error e => rw [hr] at h; simp at h
      | ok rest2 =>
        rw [hr] at h
        simp only [Except.ok.injEq] at h
        rw [← h]
        exact ProjectsDict.cons (hmem (k, v) (List.mem_cons_self _ _) v2 hv)
          (ih rest2 hr (fun kv2 hkv2 => hmem kv2 (List.mem_cons_of_mem _ hkv2)))

/-- A successful list projection projects the elements pointwise. -/
theorem getpathsList_projects :
    ∀ (xs : List (Shape Task)) (xs2 : List (Shape Target)),
      getpathsList xs = .ok xs2 →
      (∀ x ∈ xs, ∀ r, getpaths x = .ok r → ProjectsTo x r) →
      ProjectsList xs xs2 := by
  intro xs
  induction xs with
  | nil => intro xs2 h _; simp [getpathsList] at h; subst h; exact ProjectsList.nil
  | cons x rest ih =>
    intro xs2 h hmem
    simp only [getpathsList] at h
    cases hv : getpaths x with
    | error e => rw [hv] at h; simp at h
    | ok v2 =>
      rw [hv] at h
      cases hr : getpathsList rest with
      | error e => rw [hr] at h; simp at h
      | ok rest2 =>
        rw [hr] at h
        simp only [Except.ok.injEq] at h
        rw [← h]
        exact ProjectsList.cons (hmem x (List.mem_cons_self _ _) v2 hv)
          (ih rest2 hr (fun y hy => hmem y (List.mem_cons_of_mem _ hy)))

/-- Claim C5: a successful `getpaths` returns a shape structurally identical
to its input with every Task leaf replaced by that task's `output()`, and
`input()` is exactly `getpaths(requires())`. -/
theorem C5_projection_preserves_shape :
    (∀ (s : Shape Task) (r : Shape Target), getpaths s = .ok r → ProjectsTo s r) ∧
    (∀ t : Task, t.input = getpaths t.requires) := by
  constructor
  · refine Shape.inductionOn
      (motive := fun s => ∀ r, getpaths s = .ok r → ProjectsTo s r) ?_ ?_ ?_ ?_
    · intro r h
      simp [getpaths] at h
    · intro t r h
      simp only [getpaths, Except.ok.injEq] at h
      rw [← h]
      exact ProjectsTo.leaf t
    · intro es ih r h
      simp only [getpaths] at h
      cases hd : getpathsDict es with
      | error e => rw [hd] at h; simp at h
      | ok es2 =>
        rw [hd] at h
        simp only [Except.ok.injEq] at h
        rw [← h]
        exact ProjectsTo.dict (getpathsDict_projects es es2 hd ih)
    · intro xs ih r h
      simp only [getpaths] at h
      cases hd : getpathsList xs with
      | error e => rw [hd] at h; simp at h
      | ok xs2 =>
        rw [hd] at h
        simp only [Except.ok.injEq] at h
        rw [← h]
        exact ProjectsTo.list (getpathsList_projects xs xs2 hd ih)
  · intro t
    rfl

/-- Witness for C5: projecting the one-entry mapping `a -> taskW` yields the
mapping `a -> taskW.output` with the same key. -/
theorem C5_witness :
    getpaths (.dict [("a", .leaf taskW)]) = .ok (.dict [("a", .leaf ⟨true⟩)]) ∧
    ProjectsTo (.dict [("a", .leaf taskW)]) (.dict [("a", .leaf ⟨true⟩)]) :=
  ⟨rfl, C5_projection_preserves_shape.1 _ _ rfl⟩

/-! ## Claim C9 -/

/-- Claim C9: invoking `run()` on the external task variant is an error —
`ExternalTask` rebinds `run` to the non-callable `NotImplemented`
singleton, so a call raises. -/
theorem C9_external_task_run_is_error :
    invokeRun ExternalTask.run_attr = .error .notCallable ∧
    invokeRun Task.run_attr = .ok () :=
  ⟨rfl, rfl⟩

/-! ## Claim C7 -/

/-- The positional phase cannot fail when there are at most as many positional
arguments as descriptors. -/
theorem bindPositional_isOk :
    ∀ (params : List (String × Param α)) (args : List α) (r0 : List (String × α)),
      args.length ≤ params.length → ∃ r1, bindPositional params args r0 = .ok r1 := by
  intro params
  induction params with
  | nil =>
    intro args r0 h
    cases args with
    | nil => exact ⟨r0, rfl⟩
    | cons a as => simp at h
  | cons np ps ih =>
    intro args r0 h
    obtain ⟨n, p⟩ := np
    cases args with
    | nil => exact ⟨r0, rfl⟩
    | cons a as =>
      obtain ⟨r1, hr1⟩ := ih as (dictInsert r0 n a) (by simpa using h)
      exact ⟨r1, by simp [bindPositional, hr1]⟩

/-- A name bound by the positional phase is present in its result dict. -/
theorem dictContains_of_posVal (params : List (String × Param α)) (args : List α)
    (r1 : List (String × α)) (h1 : bindPositional params args [] = .ok r1)
    (n : String) (v : α) (hp : posVal params args n = some v) :
    dictContains r1 n = true := by
  have hl := bindPositional_lookup params args [] r1 h1 n
  rw [hp] at hl
  simp [dictContains, hl]

/-- If every keyword name is declared and some keyword name is already bound,
the keyword phase fails with the duplicate-binding assertion. -/
theorem bindKeywords_duplicate (names : List String) :
    ∀ (kws result : List (String × α)),
      (∀ kv ∈ kws, kv.1 ∈ names) →
      (∃ kv ∈ kws, dictContains result kv.1 = true) →
      bindKeywords names result kws = .error .duplicateParameter := by
  intro kws
  induction kws with
  | nil => intro result _ hex; simp at hex
  | cons mw rest ih =>
    intro result hknown hex
    obtain ⟨m, w⟩ := mw
    cases hc : dictContains result m with
    | true => simp [bindKeywords, hc]
    | false =>
      obtain ⟨kv, hkv, hkvc⟩ := hex
      rcases List.mem_cons.mp hkv with he | ht
      · rw [he] at hkvc
        rw [hkvc] at hc
        simp at hc
      · have hmc : names.contains m = true :=
          List.elem_eq_true_of_mem (hknown (m, w) (List.mem_cons_self _ _))
        have hrest : dictContains (dictInsert result m w) kv.1 = true := by
          unfold dictContains
          rw [lookupVal_dictInsert]
          by_cases hq : m = kv.1
          · simp [hq]
          · simp only [hq, if_false]
            unfold dictContains at hkvc
            simpa using hkvc
        have hrec := ih (dictInsert result m w)
          (fun kv2 h2 => hknown kv2 (List.mem_cons_of_mem _ h2)) ⟨kv, ht, hrest⟩
        simp [bindKeywords, hc, hmc, hrec]
        exact List.mem_of_elem_eq_true hmc

/-- Claim C7: a construction request that binds some parameter name both by a
positional argument and by a keyword argument fails at the duplicate-binding
assertion (task.py:79), provided the request is otherwise well-formed (no
surplus positional arguments and all keyword names declared). -/
theorem C7_duplicate_binding_fails {α : Type} (clsName : String)
    (params : List (String × Param α)) (args : List α) (kwargs : List (String × α))
    (n : String) (v w : α)
    (hlen : args.length ≤ params.length)
    (hknown : ∀ kv ∈ kwargs, kv.1 ∈ params.map Prod.fst)
    (hkw : (n, w) ∈ kwargs)
    (hpos : posVal params args n = some v) :
    get_param_values clsName params args kwargs = .error .duplicateParameter := by
  obtain ⟨r1, hr1⟩ := bindPositional_isOk params args [] hlen
  have hdup := bindKeywords_duplicate (params.map Prod.fst) kwargs r1 hknown
    ⟨(n, w), hkw, dictContains_of_posVal params args r1 hr1 n v hpos⟩
  unfold get_param_values
  rw [hr1]
  dsimp only
  rw [hdup]

/-- Witness for C7: `T("x", name="y")` binds `name` twice and fails at the
duplicate assertion. -/
theorem C7_witness :
    ("name", "y") ∈ [("name", "y")] ∧ posVal schemaW ["x"] "name" = some "x" ∧
    get_param_values "T" schemaW ["x"] [("name", "y")] = .error .duplicateParameter :=
  ⟨List.mem_cons_self _ _, rfl,
   C7_duplicate_binding_fails "T" schemaW ["x"] [("name", "y")] "name" "x" "y"
     (by decide) (by decide) (List.mem_cons_self _ _) rfl⟩

/-! ## Claim C8 -/

/-- Counterexample to C8 as stated: a `from_input` map holding the unknown key
`bogus` does not fail — the loop iterates only declared names, so the stray
key is silently ignored and construction succeeds. -/
theorem C8_counterexample :
    from_input "T" schemaW [("name", some "x"), ("n", some "3"), ("bogus", some "z")] =
      .ok [("name", "x"), ("n", "3")] := rfl

/-- If no keyword name is already bound, the keyword names are distinct, and
some keyword name is undeclared, the keyword phase fails at the
unknown-name assertion. -/
theorem bindKeywords_unknown (names : List String) :
    ∀ (kws result : List (String × α)),
      (∀ kv ∈ kws, dictContains result kv.1 = false) →
      (kws.map Prod.fst).Nodup →
      (∃ kv ∈ kws, ¬ kv.1 ∈ names) →
      bindKeywords names result kws = .error .unknownParameter := by
  intro kws
  induction kws with
  | nil => intro result _ _ hex; simp at hex
  | cons mw rest ih =>
    intro result hfree hnd hex
    obtain ⟨m, w⟩ := mw
    have hc : dictContains result m = false := hfree (m, w) (List.mem_cons_self _ _)
    cases hm : names.contains m with
    | false =>
      have hmn : m ∉ names := by
        intro hmem
        have h2 : names.contains m = true := List.elem_eq_true_of_mem hmem
        rw [h2] at hm
        exact Bool.noConfusion hm
      simp [bindKeywords, hc, hmn]
    | true =>
      obtain ⟨kv, hkv, hkvn⟩ := hex
      rcases List.mem_cons.mp hkv with he | ht
      · exact absurd (he ▸ List.mem_of_elem_eq_true hm) hkvn
      · simp only [List.map_cons, List.nodup_cons] at hnd
        have hfree2 : ∀ kv2 ∈ rest, dictContains (dictInsert result m w) kv2.1 = false := by
          intro kv2 h2
          have hne : m ≠ kv2.1 := by
            intro he2
            exact hnd.1 (he2 ▸ List.mem_map.mpr ⟨kv2, h2, rfl⟩)
          unfold dictContains
          rw [lookupVal_dictInsert]
          simp only [hne, if_false]
          have := hfree kv2 (List.mem_cons_of_mem _ h2)
          unfold dictContains at this
          simpa using this
        have hrec := ih (dictInsert result m w) hfree2 hnd.2 ⟨kv, ht, hkvn⟩
        simp [bindKeywords, hc, hm, hrec]

/-- Filtering the input map to a name set does not change lookups of names in
that set. -/
theorem lookupVal_filter (names : List String) :
    ∀ (input : List (String × β)) (n : String), names.contains n = true →
      lookupVal (input.filter (fun kv => names.contains kv.1)) n = lookupVal input n := by
  intro input
  induction input with
  | nil => intro n _; rfl
  | cons kv rest ih =>
    intro n hn
    obtain ⟨k, v⟩ := kv
    simp only [List.filter_cons]
    cases hk : names.contains k with
    | true =>
      rw [if_pos rfl]
      by_cases hkn : k = n
      · subst hkn
        simp [lookupVal]
      · simp only [lookupVal, hkn, if_false]
        exact ih n hn
    | false =>
      rw [if_neg (by simp)]
      have hkn : k ≠ n := by
        intro he
        subst he
        rw [hn] at hk
        exact Bool.noConfusion hk
      simp only [lookupVal, hkn, if_false]
      exact ih n hn

/-- `from_input`'s kwargs loop reads only declared names, so filtering the
input map to any name set covering the schema changes nothing. -/
theorem buildKwargs_filter (names : List String) :
    ∀ (schema : List (String × Param α)) (input : List (String × Option String)),
      (∀ np ∈ schema, names.contains np.1 = true) →
      buildKwargs schema (input.filter (fun kv => names.contains kv.1)) =
        buildKwargs schema input := by
  intro schema
  induction schema with
  | nil => intro input _; rfl
  | cons np rest ih =>
    intro input hall
    obtain ⟨n, p⟩ := np
    have hn := hall (n, p) (List.mem_cons_self _ _)
    have ih2 := ih input (fun np2 hnp => hall np2 (List.mem_cons_of_mem _ hnp))
    simp only [buildKwargs, lookupVal_filter names input n hn, ih2]

/-- Claim C8 (amended): a construction keyword argument with an undeclared
name fails at the unknown-name assertion (task.py:80) in an otherwise
well-formed request; `from_input`, by contrast, looks up only declared
names, so map keys matching no declared parameter are ignored — filtering
them away changes nothing, and in particular they cause no failure. -/
theorem C8_unknown_keyword_vs_from_input {α : Type} :
    (∀ (clsName : String) (params : List (String × Param α)) (args : List α)
        (kwargs : List (String × α)),
      args.length ≤ params.length →
      (∀ kv ∈ kwargs, posVal params args kv.1 = Option.none) →
      (kwargs.map Prod.fst).Nodup →
      (∃ kv ∈ kwargs, ¬ kv.1 ∈ params.map Prod.fst) →
      get_param_values clsName params args kwargs = .error .unknownParameter) ∧
    (∀ (clsName : String) (schema : List (String × Param α))
        (input : List (String × Option String)),
      from_input clsName schema
        (input.filter (fun kv => (schema.map Prod.fst).contains kv.1)) =
        from_input clsName schema input) := by
  constructor
  · intro clsName params args kwargs hlen hnopos hnd hex
    obtain ⟨r1, hr1⟩ := bindPositional_isOk params args [] hlen
    have hfree : ∀ kv ∈ kwargs, dictContains r1 kv.1 = false := by
      intro kv hkv
      have hl := bindPositional_lookup params args [] r1 hr1 kv.1
      rw [hnopos kv hkv] at hl
      simp [dictContains, hl, lookupVal]
    have hunk := bindKeywords_unknown (params.map Prod.fst) kwargs r1 hfree hnd hex
    unfold get_param_values
    rw [hr1]
    dsimp only
    rw [hunk]
  · intro clsName schema input
    unfold from_input
    rw [buildKwargs_filter (schema.map Prod.fst) schema input
      (fun np hnp => List.elem_eq_true_of_mem (List.mem_map.mpr ⟨np, hnp, rfl⟩))]

/-- Witness for C8 (amended): `T(bogus="z")` fails at the unknown-name
assertion. -/
theorem C8_witness :
    ¬ ("bogus" ∈ schemaW.map Prod.fst) ∧
    get_param_values "T" schemaW [] [("bogus", "z")] = .error .unknownParameter :=
  ⟨by decide,
   C8_unknown_keyword_vs_from_input.1 "T" schemaW [] [("bogus", "z")]
     (by decide) (by decide) (by decide)
     ⟨("bogus", "z"), List.mem_cons_self _ _, by decide⟩⟩

/-! ## Claims C6 and C10 -/



/-- With no positional arguments the positional phase is the identity. -/
theorem bindPositional_nil_args :
    ∀ (params : List (String × Param α)) (r0 : List (String × α)),
      bindPositional params [] r0 = .ok r0 := by
  intro params r0
  cases params <;> rfl

/-- The keyword phase succeeds when the keyword names are fresh, declared and
distinct. -/
theorem bindKeywords_isOk (names : List String) :
    ∀ (kws result : List (String × α)),
      (∀ kv ∈ kws, dictContains result kv.1 = false) →
      (∀ kv ∈ kws, kv.1 ∈ names) →
      (kws.map Prod.fst).Nodup →
      ∃ r2, bindKeywords names result kws = .ok r2 := by
  intro kws
  induction kws with
  | nil => intro result _ _ _; exact ⟨result, rfl⟩
  | cons mw rest ih =>
    intro result hfree hknown hnd
    obtain ⟨m, w⟩ := mw
    have hc : dictContains result m = false := hfree (m, w) (List.mem_cons_self _ _)
    have hmc : names.contains m = true :=
      List.elem_eq_true_of_mem (hknown (m, w) (List.mem_cons_self _ _))
    simp only [List.map_cons, List.nodup_cons] at hnd
    have hfree2 : ∀ kv2 ∈ rest, dictContains (dictInsert result m w) kv2.1 = false := by
      intro kv2 h2
      have hne : m ≠ kv2.1 := by
        intro he2
        exact hnd.1 (he2 ▸ List.mem_map.mpr ⟨kv2, h2, rfl⟩)
      unfold dictContains
      rw [lookupVal_dictInsert]
      simp only [hne, if_false]
      have := hfree kv2 (List.mem_cons_of_mem _ h2)
      unfold dictContains at this
      simpa using this
    obtain ⟨r2, hr2⟩ := ih (dictInsert result m w) hfree2
      (fun kv2 h2 => hknown kv2 (List.mem_cons_of_mem _ h2)) hnd.2
    refine ⟨r2, ?_⟩
    simp [bindKeywords, hc, hmc, hr2]
    exact List.mem_of_elem_eq_true hmc

/-- The keyword phase only ever fails at its two assertions. -/
theorem bindKeywords_error_kinds (names : List String) :
    ∀ (kws result : List (String × α)) (e : TaskError),
      bindKeywords names result kws = .error e →
      e = .duplicateParameter ∨ e = .unknownParameter := by
  intro kws
  induction kws with
  | nil => intro result e h; simp [bindKeywords] at h
  | cons mw rest ih =>
    intro result e h
    obtain ⟨m, w⟩ := mw
    simp only [bindKeywords] at h
    by_cases hc : dictContains result m
    · simp only [hc, if_true, Except.error.injEq] at h
      exact Or.inl h.symm
    · simp only [hc, Bool.false_eq_true, if_false] at h
      cases hm : names.contains m with
      | true =>
        rw [hm] at h
        simp only [if_pos] at h
        exact ih (dictInsert result m w) e h
      | false =>
        rw [hm] at h
        simp only [Bool.false_eq_true, if_false, Except.error.injEq] at h
        exact Or.inr h.symm

/-- If some no-default descriptor is unbound, the defaults phase fails with a
`MissingParameterException`. -/
theorem fillDefaults_missing (clsName : String) :
    ∀ (ps : List (String × Param α)) (result : List (String × α)) (n : String) (p : Param α),
      (ps.map Prod.fst).Nodup → (n, p) ∈ ps →
      p.default = Option.none → lookupVal result n = Option.none →
      ∃ msg, fillDefaults clsName result ps = .error (.missingParameter msg) := by
  intro ps
  induction ps with
  | nil => intro result n p _ hmem; simp at hmem
  | cons mq ps ih =>
    intro result n p hnd hmem hpd hl
    obtain ⟨m, q⟩ := mq
    simp only [List.map_cons, List.nodup_cons] at hnd
    rcases List.mem_cons.mp hmem with hhead | htail
    · injection hhead with h1 h2
      subst h1
      subst h2
      have hc : dictContains result n = false := by simp [dictContains, hl]
      refine ⟨missingMsg clsName n, ?_⟩
      simp [fillDefaults, hc, hpd]
    · have hn_mem : n ∈ ps.map Prod.fst := List.mem_map.mpr ⟨(n, p), htail, rfl⟩
      have hmn : m ≠ n := fun he => hnd.1 (he ▸ hn_mem)
      by_cases hc : dictContains result m
      · obtain ⟨msg, hmsg⟩ := ih result n p hnd.2 htail hpd hl
        exact ⟨msg, by simp [fillDefaults, hc, hmsg]⟩
      · cases hd : q.default with
        | none =>
          exact ⟨missingMsg clsName m, by simp [fillDefaults, hc, hd]⟩
        | some d =>
          obtain ⟨msg, hmsg⟩ := ih (dictInsert result m d) n p hnd.2 htail hpd
            (by rw [lookupVal_dictInsert]; simp [hmn, hl])
          exact ⟨msg, by simp [fillDefaults, hc, hd, hmsg]⟩

/-- A name present in an association list is contained in it. -/
theorem dictContains_of_mem_names :
    ∀ (r : List (String × α)) (n : String), n ∈ r.map Prod.fst →
      dictContains r n = true := by
  intro r
  induction r with
  | nil => intro n h; simp at h
  | cons kv rest ih =>
    intro n h
    obtain ⟨k, v⟩ := kv
    by_cases hk : k = n
    · simp [dictContains, lookupVal, hk]
    · simp only [List.map_cons, List.mem_cons] at h
      rcases h with he | ht
      · exact absurd he.symm hk
      · have := ih n ht
        unfold dictContains at this ⊢
        rw [lookupVal]
        simpa [hk] using this

/-- When every descriptor is already bound, the defaults phase is the
identity. -/
theorem fillDefaults_all_bound (clsName : String) :
    ∀ (ps : List (String × Param α)) (result : List (String × α)),
      (∀ np ∈ ps, dictContains result np.1 = true) →
      fillDefaults clsName result ps = .ok result := by
  intro ps
  induction ps with
  | nil => intro result _; rfl
  | cons np ps ih =>
    intro result hall
    obtain ⟨n, p⟩ := np
    have hc : dictContains result n = true := hall (n, p) (List.mem_cons_self _ _)
    simp [fillDefaults, hc, ih result (fun np2 h2 => hall np2 (List.mem_cons_of_mem _ h2))]

/-- When every descriptor is bound, the emission phase succeeds. -/
theorem emitInOrder_isOk :
    ∀ (ps : List (String × Param α)) (result : List (String × α)),
      (∀ np ∈ ps, dictContains result np.1 = true) →
      ∃ res, emitInOrder result ps = .ok res := by
  intro ps
  induction ps with
  | nil => intro result _; exact ⟨[], rfl⟩
  | cons np ps ih =>
    intro result hall
    obtain ⟨n, p⟩ := np
    have hc : dictContains result n = true := hall (n, p) (List.mem_cons_self _ _)
    unfold dictContains at hc
    cases hl : lookupVal result n with
    | none => rw [hl] at hc; simp at hc
    | some v =>
      obtain ⟨res, hres⟩ := ih result (fun np2 h2 => hall np2 (List.mem_cons_of_mem _ h2))
      exact ⟨(n, v) :: res, by simp [emitInOrder, hl, hres]⟩

/-- A successful kwargs build binds exactly the declared names, in schema
order. -/
theorem buildKwargs_names :
    ∀ (schema : List (String × Param α)) (input : List (String × Option String))
      (kw : List (String × α)),
      buildKwargs schema input = .ok kw → kw.map Prod.fst = schema.map Prod.fst := by
  intro schema
  induction schema with
  | nil => intro input kw h; simp [buildKwargs] at h; subst h; rfl
  | cons np rest ih =>
    intro input kw h
    obtain ⟨n, p⟩ := np
    simp only [buildKwargs] at h
    cases hl : lookupVal input n with
    | none => rw [hl] at h; simp at h
    | some o =>
      rw [hl] at h
      cases o with
      | some s =>
        cases hb : buildKwargs rest input with
        | error e => rw [hb] at h; simp at h
        | ok kw2 =>
          rw [hb] at h
          simp only [Except.ok.injEq] at h
          subst h
          simp [ih input kw2 hb]
      | none =>
        cases hd : p.default with
        | none => rw [hd] at h; simp at h
        | some d =>
          rw [hd] at h
          cases hb : buildKwargs rest input with
          | error e => rw [hb] at h; simp at h
          | ok kw2 =>
            rw [hb] at h
            simp only [Except.ok.injEq] at h
            subst h
            simp [ih input kw2 hb]

/-- A kwargs-build failure with `MissingParameterException` pinpoints a
declared name that is present, null, and without default. -/
theorem buildKwargs_missing_inv :
    ∀ (schema : List (String × Param α)) (input : List (String × Option String)) (msg : String),
      buildKwargs schema input = .error (.missingParameter msg) →
      ∃ np ∈ schema, lookupVal input np.1 = some Option.none ∧
        np.2.default = Option.none := by
  intro schema
  induction schema with
  | nil => intro input msg h; simp [buildKwargs] at h
  | cons np rest ih =>
    intro input msg h
    obtain ⟨n, p⟩ := np
    simp only [buildKwargs] at h
    cases hl : lookupVal input n with
    | none => rw [hl] at h; simp at h
    | some o =>
      rw [hl] at h
      cases o with
      | some s =>
        cases hb : buildKwargs rest input with
        | error e =>
          rw [hb] at h
          simp only [Except.error.injEq] at h
          obtain ⟨np2, hmem, hp⟩ := ih input msg (h ▸ hb)
          exact ⟨np2, List.mem_cons_of_mem _ hmem, hp⟩
        | ok kw2 => rw [hb] at h; simp at h
      | none =>
        cases hd : p.default with
        | none => exact ⟨(n, p), List.mem_cons_self _ _, hl, hd⟩
        | some d =>
          rw [hd] at h
          cases hb : buildKwargs rest input with
          | error e =>
            rw [hb] at h
            simp only [Except.error.injEq] at h
            obtain ⟨np2, hmem, hp⟩ := ih input msg (h ▸ hb)
            exact ⟨np2, List.mem_cons_of_mem _ hmem, hp⟩
          | ok kw2 => rw [hb] at h; simp at h

/-- After well-supplied descriptors, a kwargs-build error propagates
unchanged. -/
theorem buildKwargs_pre_error (input : List (String × Option String)) :
    ∀ (pre rest : List (String × Param α)) (e : TaskError),
      (∀ mq ∈ pre, SuppliedOk input mq) →
      buildKwargs rest input = .error e →
      buildKwargs (pre ++ rest) input = .error e := by
  intro pre
  induction pre with
  | nil => intro rest e _ h; simpa using h
  | cons mq pre2 ih =>
    intro rest e hok h
    obtain ⟨m, q⟩ := mq
    have hrec := ih rest e (fun mq2 h2 => hok mq2 (List.mem_cons_of_mem _ h2)) h
    rcases hok (m, q) (List.mem_cons_self _ _) with ⟨s, hs⟩ | ⟨hnull, hdef⟩
    · rw [List.cons_append]
      simp [buildKwargs, hs, hrec]
    · obtain ⟨d, hd⟩ := Option.isSome_iff_exists.mp hdef
      have hd2 : q.default = some d := hd
      rw [List.cons_append]
      simp [buildKwargs, hnull, hd2, hrec]

/-- Reading the emitted canonical list at a schema name returns the
characterized value. -/
theorem forall₂_lookupF {F : String × Param α → Option α} :
    ∀ {ps : List (String × Param α)} {res : List (String × α)},
      List.Forall₂ (fun np rv => rv.1 = np.1 ∧ some rv.2 = F np) ps res →
      (ps.map Prod.fst).Nodup →
      ∀ n p, (n, p) ∈ ps → lookupVal res n = F (n, p) := by
  intro ps res h
  induction h with
  | nil => intro _ n p hmem; simp at hmem
  | @cons a b as bs hab htail ih =>
    intro hnd n p hmem
    obtain ⟨b1, b2⟩ := b
    simp only [List.map_cons, List.nodup_cons] at hnd
    rcases List.mem_cons.mp hmem with hhead | ht
    · subst hhead
      have hb1 : b1 = n := hab.1
      rw [lookupVal, if_pos hb1]
      exact hab.2
    · have hn_mem : n ∈ as.map Prod.fst := List.mem_map.mpr ⟨(n, p), ht, rfl⟩
      have hne : b1 ≠ n := by
        intro he
        exact hnd.1 (hab.1 ▸ he ▸ hn_mem)
      rw [lookupVal, if_neg hne]
      exact ih hnd.2 n p ht

/-- Counterexample to C6 as stated: leaving the required `name` entirely out
of a `from_input` map makes `params[param_name]` raise a KeyError, not a
`MissingParameterException`. -/
theorem C6_counterexample :
    from_input "T" schemaW ([] : List (String × Option String)) =
        .error (.keyError "name") ∧
    isMissingParameterError
      (from_input "T" schemaW ([] : List (String × Option String))) = false :=
  ⟨rfl, rfl⟩

/-- Claim C6 (amended): for direct construction, a well-formed binding that
leaves a no-default descriptor unbound fails with
`MissingParameterException`, and an unbound defaulted descriptor is bound to
its default; for `from_input`, a declared name present with a null value and
no default fails with `MissingParameterException`, while a declared name
entirely absent from the map fails with a KeyError instead. -/
theorem C6_missing_parameter_behaviour {α : Type} :
    (∀ (clsName : String) (params : List (String × Param α)) (args : List α)
        (kwargs : List (String × α)) (n : String) (p : Param α),
      (params.map Prod.fst).Nodup →
      args.length ≤ params.length →
      (∀ kv ∈ kwargs, posVal params args kv.1 = Option.none) →
      (∀ kv ∈ kwargs, kv.1 ∈ params.map Prod.fst) →
      (kwargs.map Prod.fst).Nodup →
      (n, p) ∈ params → p.default = Option.none →
      suppliedVal params args kwargs n = Option.none →
      ∃ msg, get_param_values clsName params args kwargs =
        .error (.missingParameter msg)) ∧
    (∀ (clsName : String) (params : List (String × Param α)) (args : List α)
        (kwargs res : List (String × α)) (n : String) (p : Param α),
      (params.map Prod.fst).Nodup →
      get_param_values clsName params args kwargs = .ok res →
      (n, p) ∈ params →
      suppliedVal params args kwargs n = Option.none →
      lookupVal res n = p.default) ∧
    (∀ (clsName : String) (pre post : List (String × Param α))
        (input : List (String × Option String)) (n : String) (p : Param α),
      (∀ mq ∈ pre, SuppliedOk input mq) →
      lookupVal input n = some Option.none → p.default = Option.none →
      from_input clsName (pre ++ (n, p) :: post) input =
        .error (.missingParameter (fromInputMsg n))) ∧
    (∀ (clsName : String) (pre post : List (String × Param α))
        (input : List (String × Option String)) (n : String) (p : Param α),
      (∀ mq ∈ pre, SuppliedOk input mq) →
      lookupVal input n = Option.none →
      from_input clsName (pre ++ (n, p) :: post) input = .error (.keyError n)) := by
  refine ⟨?_, ?_, ?_, ?_⟩
  · intro clsName params args kwargs n p hnd hlen hnopos hknown hkwnd hmem hpd hsup
    obtain ⟨r1, hr1⟩ := bindPositional_isOk params args [] hlen
    have hfree : ∀ kv ∈ kwargs, dictContains r1 kv.1 = false := by
      intro kv hkv
      have hl := bindPositional_lookup params args [] r1 hr1 kv.1
      rw [hnopos kv hkv] at hl
      simp [dictContains, hl, lookupVal]
    obtain ⟨r2, hr2⟩ := bindKeywords_isOk (params.map Prod.fst) kwargs r1 hfree hknown hkwnd
    have hr2eq : r2 = r1 ++ kwargs := bindKeywords_ok _ kwargs r1 r2 hr2
    have hr2look : lookupVal r2 n = Option.none := by
      rw [hr2eq, lookupVal_append, bindPositional_lookup params args [] r1 hr1 n]
      unfold suppliedVal at hsup
      cases hp : posVal params args n with
      | some v => rw [hp] at hsup; simp at hsup
      | none =>
        rw [hp] at hsup
        simp only [lookupVal]
        simpa using hsup
    obtain ⟨msg, hmsg⟩ := fillDefaults_missing clsName params r2 n p hnd hmem hpd hr2look
    refine ⟨msg, ?_⟩
    unfold get_param_values
    rw [hr1]
    dsimp only
    rw [hr2]
    dsimp only
    rw [hmsg]
  · intro clsName params args kwargs res n p hnd hok hmem hsup
    have hchar := get_param_values_char clsName params args kwargs res hnd hok
    have := forall₂_lookupF hchar hnd n p hmem
    rw [this]
    unfold resolveSpec
    rw [hsup]
  · intro clsName pre post input n p hok hnull hpd
    have hhead : buildKwargs ((n, p) :: post) input =
        .error (.missingParameter (fromInputMsg n)) := by
      simp [buildKwargs, hnull, hpd]
    have := buildKwargs_pre_error input pre ((n, p) :: post) _ hok hhead
    unfold from_input
    rw [this]
  · intro clsName pre post input n p hok habs
    have hhead : buildKwargs ((n, p) :: post) input = .error (.keyError n) := by
      simp [buildKwargs, habs]
    have := buildKwargs_pre_error input pre ((n, p) :: post) _ hok hhead
    unfold from_input
    rw [this]

/-- Witness for C6 (amended): constructing `T()` with no arguments leaves the
required `name` unbound and fails with `MissingParameterException`. -/
theorem C6_witness :
    ("name", (⟨Option.none, fun s => s⟩ : Param String)) ∈ schemaW ∧
    ∃ msg, get_param_values "T" schemaW ([] : List String)
      ([] : List (String × String)) = .error (.missingParameter msg) :=
  ⟨List.mem_cons_self _ _,
   C6_missing_parameter_behaviour.1 "T" schemaW [] [] "name" ⟨Option.none, fun s => s⟩
     (by decide) (by decide) (by simp) (by simp) (by simp)
     (List.mem_cons_self _ _) rfl rfl⟩

/-- Claim C10: `from_input` subscripts the map at every declared name, so a
declared name entirely absent from the map raises a KeyError, and
`MissingParameterException` arises only from a declared name that is present
with a null value and has no default. -/
theorem C10_from_input_lookup {α : Type} :
    (∀ (clsName : String) (schema : List (String × Param α))
        (input : List (String × Option String)) (msg : String),
      from_input clsName schema input = .error (.missingParameter msg) →
      ∃ np ∈ schema, lookupVal input np.1 = some Option.none ∧
        np.2.default = Option.none) ∧
    (∀ (clsName : String) (pre post : List (String × Param α))
        (input : List (String × Option String)) (n : String) (p : Param α),
      (∀ mq ∈ pre, SuppliedOk input mq) →
      lookupVal input n = Option.none →
      from_input clsName (pre ++ (n, p) :: post) input = .error (.keyError n)) := by
  constructor
  · intro clsName schema input msg h
    unfold from_input at h
    cases hb : buildKwargs schema input with
    | error e =>
      rw [hb] at h
      simp only [Except.error.injEq] at h
      exact buildKwargs_missing_inv schema input msg (h ▸ hb)
    | ok kw =>
      rw [hb] at h
      dsimp only at h
      exfalso
      have hnames : kw.map Prod.fst = schema.map Prod.fst := buildKwargs_names schema input kw hb
      unfold get_param_values at h
      rw [bindPositional_nil_args schema ([] : List (String × α))] at h
      dsimp only at h
      cases hbk : bindKeywords (schema.map Prod.fst) [] kw with
      | error e =>
        rcases bindKeywords_error_kinds (schema.map Prod.fst) kw [] e hbk with he | he <;>
          · rw [hbk] at h
            dsimp only at h
            rw [he] at h
            simp at h
      | ok r2 =>
        rw [hbk] at h
        dsimp only at h
        have hr2 : r2 = kw := by
          have := bindKeywords_ok (schema.map Prod.fst) kw [] r2 hbk
          simpa using this
        subst hr2
        have hall : ∀ np ∈ schema, dictContains r2 np.1 = true := by
          intro np hnp
          refine dictContains_of_mem_names r2 np.1 ?_
          rw [hnames]
          exact List.mem_map.mpr ⟨np, hnp, rfl⟩
        rw [fillDefaults_all_bound clsName schema r2 hall] at h
        dsimp only at h
        obtain ⟨res, hres⟩ := emitInOrder_isOk schema r2 hall
        rw [hres] at h
        simp at h
  · intro clsName pre post input n p hok habs
    have hhead : buildKwargs ((n, p) :: post) input = .error (.keyError n) := by
      simp [buildKwargs, habs]
    have := buildKwargs_pre_error input pre ((n, p) :: post) _ hok hhead
    unfold from_input
    rw [this]

/-- Witness for C10: `from_input` on an empty map raises a KeyError for the
declared name `name`. -/
theorem C10_witness :
    lookupVal ([] : List (String × Option String)) "name" = Option.none ∧
    from_input "T" schemaW ([] : List (String × Option String)) =
      .error (.keyError "name") :=
  ⟨rfl,
   C10_from_input_lookup.2 "T" [] [("n", ⟨some "10", fun s => s⟩)] []
     "name" ⟨Option.none, fun s => s⟩ (by simp) rfl⟩

end Luigi
